import Mathlib

/-!
Verification development for the ipc-areas consolidation and simplification
pipeline (scripts/download_ipc_areas.py, scripts/combine_ipc_areas.py,
scripts/simplify_ipc_global_areas.py, scripts/optimize_global_topojson.py).

JSON values are embedded as the inductive `JVal`; Python floats are modelled
as rationals. External capabilities (the SHA1-of-canonical-JSON fingerprint
used for content keys, and the shapely topology-preserving simplification)
are parameters of the definitions that call them, mirroring the spec's
"injected function" abstraction. File and network I/O is outside the model:
functions are stated over already-loaded feature lists.
-/

set_option autoImplicit false

/-- A JSON value as manipulated by the Python scripts. Python's separate
`int` and `float` leaves are kept distinct because `round_nested` rounds
only floats. -/
inductive JVal where
  | null
  | bool (b : Bool)
  | int (n : Int)
  | float (q : Rat)
  | str (s : String)
  | arr (xs : List JVal)
  | obj (kvs : List (String × JVal))

/-- Dictionary access `d.get(k)`: the value stored under the first matching
key of an object, `None` (here `none`) when the key is absent or the
receiver is not a dict. -/
def jget : JVal → String → Option JVal
  | .obj kvs, k => (kvs.find? (fun p => p.1 = k)).map Prod.snd
  | _, _ => none

/-- Access as seen by Python code that tests `is not None`: a stored JSON
null was loaded as Python `None`, so it is indistinguishable from an absent
key. -/
def jgetPy (v : JVal) (k : String) : Option JVal :=
  match jget v k with
  | some .null => none
  | r => r

/-- Python truthiness of a loaded JSON value. -/
def pyTruthy : JVal → Bool
  | .null => false
  | .bool b => b
  | .int n => n ≠ 0
  | .float q => q ≠ 0
  | .str s => s ≠ ""
  | .arr xs => !xs.isEmpty
  | .obj kvs => !kvs.isEmpty

/-- The idiom `feature.get('properties') or {}`. -/
def jprops (f : JVal) : JVal :=
  match jget f "properties" with
  | some p => if pyTruthy p then p else .obj []
  | none => .obj []

/-- Python `str(x)` for the values that can appear as identifiers. The
float, array and object renderings are model placeholders (identifiers are
strings or integers in the datasets); no theorem depends on them. -/
def pyStr : JVal → String
  | .null => "None"
  | .bool true => "True"
  | .bool false => "False"
  | .int n => toString n
  | .float q => toString q
  | .str s => s
  | .arr _ => "[...]"
  | .obj _ => "\x7b...\x7d"

/-- Leading and trailing whitespace removal on a character list. -/
def stripChars (l : List Char) : List Char :=
  ((l.dropWhile Char.isWhitespace).reverse.dropWhile Char.isWhitespace).reverse

/-- Python `str.strip()`. -/
def pyStrip (s : String) : String := ⟨stripChars s.data⟩

/-- Python `str.lower()`. -/
def pyLower (s : String) : String := ⟨s.data.map Char.toLower⟩

/-- Accumulator pass behind `str.split()`: splits on whitespace runs and
drops empty fragments. -/
def splitWsAux : List Char → List Char → List String
  | [], [] => []
  | [], acc => [⟨acc.reverse⟩]
  | c :: cs, acc =>
    if c.isWhitespace then
      if acc = [] then splitWsAux cs [] else ⟨acc.reverse⟩ :: splitWsAux cs []
    else splitWsAux cs (c :: acc)

/-- Python `str.split()` with no separator argument. -/
def pySplitWs (s : String) : List String := splitWsAux s.data []

/-- Python `sep.join(parts)`. -/
def joinWith (sep : String) : List String → String
  | [] => ""
  | [x] => x
  | x :: xs => x ++ sep ++ joinWith sep xs

/-- The idiom `(v or '')` applied to an optional property value followed by
string methods: a present string passes through, everything falsy becomes
the empty string. A truthy non-string would raise in Python and is
unmodelled (mapped to the empty string). -/
def strOrEmpty : Option JVal → String
  | some (.str s) => s
  | _ => ""

/-- Shared `normalize_title`: `"" if not title else " ".join(title.split()).strip().lower()`. -/
def normalize_title (title : Option JVal) : String :=
  match title with
  | some (.str s) => if s = "" then "" else pyLower (pyStrip (joinWith " " (pySplitWs s)))
  | _ => ""

/-- The `(props.get('iso3') or '').strip().lower()` computation. -/
def iso3Norm (props : JVal) : String := pyLower (pyStrip (strOrEmpty (jget props "iso3")))

/-- Truthiness of an optional value (`if geometry:` after a `.get`). -/
def truthyOpt : Option JVal → Bool
  | some v => pyTruthy v
  | none => false

namespace Download

/-- Deduplication key of `IPCAreaDownloader.feature_key`
(scripts/download_ipc_areas.py lines 165-186). `dg` stands in for the
external `sha1(json.dumps(·, sort_keys=True)).hexdigest()` fingerprint. -/
def feature_key (dg : JVal → String) (feature : JVal) : String :=
  let props := jprops feature
  match jgetPy props "id" with
  | some area_id => "id::" ++ iso3Norm props ++ "::" ++ pyStrip (pyStr area_id)
  | none =>
    let title_key := normalize_title (jgetPy props "title")
    if title_key ≠ "" then "title::" ++ title_key
    else
      match jget feature "geometry" with
      | some g => if pyTruthy g then "geometry::" ++ dg g else "feature::" ++ dg feature
      | none => "feature::" ++ dg feature

/-- A map entry of the consolidation aggregate (lines 261-267 of
scripts/download_ipc_areas.py). -/
structure Candidate where
  feature : JVal
  priority : Int
  source_year : Option Int
  source_label : String
  title : Option JVal

/-- Candidate construction inside `merge_features`: the source year is the
feature's own `year` property when it is not `None`, else the batch's
declared year. Non-integer `year` property values are unmodelled (kept as
the batch year). -/
def mkCandidate (priority : Int) (source_year : Option Int) (source_label : String)
    (feature : JVal) : Candidate :=
  let props := jprops feature
  { feature := feature
    priority := priority
    source_year :=
      match jgetPy props "year" with
      | some (.int n) => some n
      | some _ => source_year
      | none => source_year
    source_label := source_label
    title := jgetPy props "title" }

/-- The `candidate.get('source_year') or 0` coercion used by the tie-break. -/
def effYear (c : Candidate) : Int := c.source_year.getD 0

/-- The replacement decision of `merge_features` (lines 275-282): replace
when the incoming priority is strictly higher, or priorities are equal and
the incoming effective year is at least the existing one. -/
def replaceCond (cand existing : Candidate) : Prop :=
  existing.priority < cand.priority ∨
    (cand.priority = existing.priority ∧ effYear existing ≤ effYear cand)

instance (c e : Candidate) : Decidable (replaceCond c e) := by
  unfold replaceCond; infer_instance

/-- The canonical aggregate, a Python dict keyed by deduplication key,
embedded as an insertion-ordered association list. -/
abbrev AggMap := List (String × Candidate)

/-- Dict lookup. -/
def lookupKey : AggMap → String → Option Candidate
  | [], _ => none
  | (k', c) :: t, k => if k' = k then some c else lookupKey t k

/-- Dict assignment `aggregate[key] = candidate`: replaces in place,
appends when the key is new. -/
def setKey : AggMap → String → Candidate → AggMap
  | [], k, c => [(k, c)]
  | (k', c') :: t, k, c => if k' = k then (k, c) :: t else (k', c') :: setKey t k c

/-- The added/updated/skipped statistics returned by `merge_features`. -/
structure Stats where
  added : Nat
  updated : Nat
  skipped : Nat
deriving DecidableEq

/-- Loop body of `merge_features` for a single incoming feature (the
`copy.deepcopy` is the identity on immutable values). -/
def mergeStep (dg : JVal → String) (priority : Int) (source_year : Option Int)
    (source_label : String) (acc : AggMap × Stats) (feature : JVal) : AggMap × Stats :=
  let key := feature_key dg feature
  let candidate := mkCandidate priority source_year source_label feature
  match lookupKey acc.1 key with
  | none => (setKey acc.1 key candidate, { acc.2 with added := acc.2.added + 1 })
  | some existing =>
    if replaceCond candidate existing then
      (setKey acc.1 key candidate, { acc.2 with updated := acc.2.updated + 1 })
    else
      (acc.1, { acc.2 with skipped := acc.2.skipped + 1 })

/-- `IPCAreaDownloader.merge_features` (lines 248-290): folds a batch of
incoming features into the aggregate, returning the updated aggregate
together with the statistics (the Python version mutates the dict in
place and returns only the statistics). -/
def merge_features (dg : JVal → String) (aggregate : AggMap) (features : List JVal)
    (priority : Int) (source_year : Option Int) (source_label : String) : AggMap × Stats :=
  features.foldl (mergeStep dg priority source_year source_label) (aggregate, ⟨0, 0, 0⟩)

/-- One input batch as passed to a `merge_features` call. -/
structure Batch where
  features : List JVal
  priority : Int
  source_year : Option Int
  source_label : String

/-- Aggregate after merging one batch. -/
def mergeBatch (dg : JVal → String) (m : AggMap) (b : Batch) : AggMap :=
  (merge_features dg m b.features b.priority b.source_year b.source_label).1

/-- Aggregate after merging a sequence of batches in order, as
`process_country` does across legacy, per-year and downloaded sources. -/
def mergeBatches (dg : JVal → String) (m : AggMap) (bs : List Batch) : AggMap :=
  bs.foldl (mergeBatch dg) m

/-- The readout `sorted(aggregate.items(), key=lambda item: item[0])` of
`process_country` (line 610). -/
def sortedEntries (m : AggMap) : AggMap := m.mergeSort (fun a b => a.1 ≤ b.1)

/-- The final feature list (line 611). -/
def final_features (m : AggMap) : List JVal := (sortedEntries m).map (fun e => e.2.feature)

end Download

namespace Combine

/-- Deduplication key of `combine_ipc_areas.feature_key` (lines 43-59):
ISO3 plus normalized title when both are truthy, else geometry hash, else
whole-feature hash. There is no identifier-based rule in this variant. -/
def feature_key (dg : JVal → String) (feature : JVal) : String :=
  let props := jprops feature
  let iso3 := iso3Norm props
  let title := normalize_title (jgetPy props "title")
  if iso3 ≠ "" ∧ title ≠ "" then iso3 ++ "::" ++ title
  else
    match jget feature "geometry" with
    | some g => if pyTruthy g then "geometry::" ++ dg g else "feature::" ++ dg feature
    | none => "feature::" ++ dg feature

end Combine

namespace Spec

/-- Modelled from the spec: the Identity Resolver resolution order claimed
in §4.2 — (1) identifier rule, (2) title rule namespaced by ISO3 when both
are present, else a `title::` prefix, (3) geometry hash, (4) whole-feature
hash. This definition follows the spec's words; it exists to be compared
with the two implementations. -/
def claimed_key (dg : JVal → String) (feature : JVal) : String :=
  let props := jprops feature
  match jgetPy props "id" with
  | some area_id => "id::" ++ iso3Norm props ++ "::" ++ pyStrip (pyStr area_id)
  | none =>
    let ntitle := normalize_title (jgetPy props "title")
    if ntitle ≠ "" then
      if iso3Norm props ≠ "" then iso3Norm props ++ "::" ++ ntitle
      else "title::" ++ ntitle
    else
      match jget feature "geometry" with
      | some g => if pyTruthy g then "geometry::" ++ dg g else "feature::" ++ dg feature
      | none => "feature::" ++ dg feature

end Spec

def dg0 : JVal → String := fun _ => ""

/-- Feature with an ISO3 code and a title but no identifier: the spec's
rule 2 would namespace the title by the ISO3 code. -/
def c2Feat1 : JVal := .obj [("properties", .obj [("iso3", .str "KEN"), ("title", .str "Area X")])]

/-- Feature with an identifier and an ISO3 code but no title: the spec's
rule 1 would produce an id-based key. -/
def c2Feat2 : JVal := .obj [("properties", .obj [("id", .str "7"), ("iso3", .str "KEN")])]

/-- C2 counterexample: neither implementation follows the spec's claimed
resolution order. The downloader keys `c2Feat1` as `title::area x`, not
`ken::area x`; the combiner has no identifier rule and keys `c2Feat2` by
whole-feature hash instead of `id::ken::7`. -/
theorem c2_counterexample :
    Download.feature_key dg0 c2Feat1 ≠ Spec.claimed_key dg0 c2Feat1
    ∧ Combine.feature_key dg0 c2Feat2 ≠ Spec.claimed_key dg0 c2Feat2 := by
  constructor <;> decide

/-- C2 amended: the actual resolution orders. The downloader resolves
identifier, then bare `title::` key (never ISO3-namespaced), then geometry
hash, then whole-feature hash; the combiner resolves ISO3-plus-title (even
when an identifier is present), then geometry hash, then whole-feature
hash, with no identifier rule. -/
theorem c2_amended (dg : JVal → String) (f : JVal) :
    (∀ v, jgetPy (jprops f) "id" = some v →
      Download.feature_key dg f = "id::" ++ iso3Norm (jprops f) ++ "::" ++ pyStrip (pyStr v))
    ∧ (jgetPy (jprops f) "id" = none → normalize_title (jgetPy (jprops f) "title") ≠ "" →
      Download.feature_key dg f = "title::" ++ normalize_title (jgetPy (jprops f) "title"))
    ∧ (jgetPy (jprops f) "id" = none → normalize_title (jgetPy (jprops f) "title") = "" →
      ∀ g, jget f "geometry" = some g → pyTruthy g = true →
      Download.feature_key dg f = "geometry::" ++ dg g)
    ∧ (jgetPy (jprops f) "id" = none → normalize_title (jgetPy (jprops f) "title") = "" →
      truthyOpt (jget f "geometry") = false →
      Download.feature_key dg f = "feature::" ++ dg f)
    ∧ (iso3Norm (jprops f) ≠ "" → normalize_title (jgetPy (jprops f) "title") ≠ "" →
      Combine.feature_key dg f
        = iso3Norm (jprops f) ++ "::" ++ normalize_title (jgetPy (jprops f) "title"))
    ∧ (¬(iso3Norm (jprops f) ≠ "" ∧ normalize_title (jgetPy (jprops f) "title") ≠ "") →
      ∀ g, jget f "geometry" = some g → pyTruthy g = true →
      Combine.feature_key dg f = "geometry::" ++ dg g)
    ∧ (¬(iso3Norm (jprops f) ≠ "" ∧ normalize_title (jgetPy (jprops f) "title") ≠ "") →
      truthyOpt (jget f "geometry") = false →
      Combine.feature_key dg f = "feature::" ++ dg f) := by
  refine ⟨?_, ?_, ?_, ?_, ?_, ?_, ?_⟩
  · intro v hid
    simp only [Download.feature_key, hid]
  · intro hid ht
    simp only [Download.feature_key, hid, if_pos ht]
  · intro hid ht g hg hgt
    simp only [Download.feature_key, hid, ht, hg, hgt, if_true]
    simp
  · intro hid ht hgeom
    simp only [Download.feature_key, hid, ht]
    simp only [ne_eq, not_true_eq_false, if_false]
    cases hg : jget f "geometry" with
    | none => simp [hg]
    | some g =>
      simp only [truthyOpt, hg] at hgeom
      simp [hg, hgeom]
  · intro hiso ht
    simp only [Combine.feature_key, if_pos (And.intro hiso ht)]
  · intro hcond g hg hgt
    simp only [Combine.feature_key, if_neg hcond, hg, hgt, if_true]
  · intro hcond hgeom
    simp only [Combine.feature_key, if_neg hcond]
    cases hg : jget f "geometry" with
    | none => simp [hg]
    | some g =>
      simp only [truthyOpt, hg] at hgeom
      simp [hg, hgeom]

/-- Feature with a truthy geometry and no usable properties. -/
def c2FeatG : JVal := .obj [("geometry", .str "G")]

/-- Feature with no properties and no geometry. -/
def c2FeatN : JVal := .obj []

/-- Witness for the C2 amended theorem: every rule of both resolution
orders is exercised on a concrete feature. -/
theorem c2_amended_witness :
    Download.feature_key dg0 c2Feat2 = "id::ken::7"
    ∧ Download.feature_key dg0 c2Feat1 = "title::area x"
    ∧ Download.feature_key dg0 c2FeatG = "geometry::"
    ∧ Download.feature_key dg0 c2FeatN = "feature::"
    ∧ Combine.feature_key dg0 c2Feat1 = "ken::area x"
    ∧ Combine.feature_key dg0 c2FeatG = "geometry::"
    ∧ Combine.feature_key dg0 c2FeatN = "feature::" :=
  ⟨(c2_amended dg0 c2Feat2).1 (.str "7") rfl,
   (c2_amended dg0 c2Feat1).2.1 rfl (by decide),
   (c2_amended dg0 c2FeatG).2.2.1 rfl rfl (.str "G") rfl rfl,
   (c2_amended dg0 c2FeatN).2.2.2.1 rfl rfl rfl,
   (c2_amended dg0 c2Feat1).2.2.2.2.1 (by decide) (by decide),
   (c2_amended dg0 c2FeatG).2.2.2.2.2.1 (by decide) (.str "G") rfl rfl,
   (c2_amended dg0 c2FeatN).2.2.2.2.2.2 (by decide) rfl⟩

namespace Download

/-- The lexicographic (priority, effective year) rank that drives the
tie-break. -/
def rank (c : Candidate) : Int × Int := (c.priority, effYear c)

/-- Challenge of an existing map value by an incoming candidate. -/
def pick (e c : Candidate) : Candidate := if replaceCond c e then c else e

/-- Challenge of an optional existing value. -/
def chal : Option Candidate → Candidate → Candidate
  | none, c => c
  | some e, c => pick e c

/-- One merge step projected to a single key. -/
def chalO (e : Option Candidate) (c : Candidate) : Option Candidate := some (chal e c)

/-- Combination of two per-key outcomes. -/
def oop (x y : Option Candidate) : Option Candidate :=
  match y with
  | none => x
  | some c => chalO x c

theorem lookup_setKey (m : AggMap) (k : String) (c : Candidate) (k' : String) :
    lookupKey (setKey m k c) k' = if k' = k then some c else lookupKey m k' := by
  induction m with
  | nil =>
    by_cases h : k' = k
    · subst h; simp [setKey, lookupKey]
    · have hne : ¬k = k' := fun hh => h hh.symm
      simp [setKey, lookupKey, h, hne]
  | cons hd t ih =>
    obtain ⟨k₀, c₀⟩ := hd
    by_cases h0 : k₀ = k
    · subst h0
      by_cases h : k' = k₀
      · subst h; simp [setKey, lookupKey]
      · have hne : ¬k₀ = k' := fun hh => h hh.symm
        simp [setKey, lookupKey, h, hne]
    · by_cases h : k' = k
      · subst h
        have hne : ¬k₀ = k' := h0
        simp [setKey, lookupKey, h0, hne, ih]
      · by_cases h2 : k₀ = k'
        · subst h2
          simp [setKey, lookupKey, h0, h]
        · simp [setKey, lookupKey, h0, h, h2, ih]

theorem setKey_self {m : AggMap} {k : String} {c : Candidate}
    (h : lookupKey m k = some c) : setKey m k c = m := by
  induction m with
  | nil => simp [lookupKey] at h
  | cons hd t ih =>
    obtain ⟨k₀, c₀⟩ := hd
    by_cases h0 : k₀ = k
    · subst h0
      simp only [lookupKey, if_pos rfl] at h
      have hc : c₀ = c := by simpa using h
      subst hc
      simp [setKey]
    · simp only [lookupKey, if_neg h0] at h
      simp [setKey, h0, ih h]

theorem mergeStep_fst (dg : JVal → String) (p : Int) (y : Option Int) (lbl : String)
    (m : AggMap) (st : Stats) (f : JVal) :
    (mergeStep dg p y lbl (m, st) f).1
      = setKey m (feature_key dg f)
          (chal (lookupKey m (feature_key dg f)) (mkCandidate p y lbl f)) := by
  unfold mergeStep
  cases h : lookupKey m (feature_key dg f) with
  | none => simp [h, chal]
  | some e =>
    simp only [h, chal]
    by_cases hr : replaceCond (mkCandidate p y lbl f) e
    · simp [hr, pick]
    · simp [hr, pick, setKey_self h]

/-- The candidates that a feature batch contributes at one key. -/
def candsFor (dg : JVal → String) (p : Int) (y : Option Int) (lbl : String)
    (k : String) (fs : List JVal) : List Candidate :=
  fs.filterMap (fun f => if feature_key dg f = k then some (mkCandidate p y lbl f) else none)

theorem lookup_merge_loop (dg : JVal → String) (p : Int) (y : Option Int) (lbl : String) :
    ∀ (fs : List JVal) (m : AggMap) (st : Stats) (k : String),
      lookupKey ((fs.foldl (mergeStep dg p y lbl) (m, st)).1) k
        = (candsFor dg p y lbl k fs).foldl chalO (lookupKey m k) := by
  intro fs
  induction fs with
  | nil => intro m st k; simp [candsFor]
  | cons f t ih =>
    intro m st k
    have hcons : (f :: t).foldl (mergeStep dg p y lbl) (m, st)
        = t.foldl (mergeStep dg p y lbl) (mergeStep dg p y lbl (m, st) f) := by
      simp
    rw [hcons]
    have hstep : mergeStep dg p y lbl (m, st) f
        = ((mergeStep dg p y lbl (m, st) f).1, (mergeStep dg p y lbl (m, st) f).2) := rfl
    rw [hstep, ih]
    by_cases hk : feature_key dg f = k
    · have h1 : candsFor dg p y lbl k (f :: t)
          = mkCandidate p y lbl f :: candsFor dg p y lbl k t := by
        simp [candsFor, hk]
      rw [h1, mergeStep_fst, lookup_setKey]
      simp [hk, chalO]
    · have h1 : candsFor dg p y lbl k (f :: t) = candsFor dg p y lbl k t := by
        simp [candsFor, hk]
      rw [h1, mergeStep_fst, lookup_setKey]
      have hne : ¬k = feature_key dg f := fun h => hk h.symm
      simp [hne]

theorem lookup_merge_features (dg : JVal → String) (m : AggMap) (fs : List JVal)
    (p : Int) (y : Option Int) (lbl : String) (k : String) :
    lookupKey ((merge_features dg m fs p y lbl).1) k
      = (candsFor dg p y lbl k fs).foldl chalO (lookupKey m k) :=
  lookup_merge_loop dg p y lbl fs m ⟨0, 0, 0⟩ k

theorem replaceCond_iff (c e : Candidate) :
    replaceCond c e ↔ (e.priority < c.priority ∨
      (c.priority = e.priority ∧ effYear e ≤ effYear c)) := Iff.rfl

theorem pick_self (c : Candidate) : pick c c = c := by
  unfold pick
  split <;> rfl

theorem pick_assoc (a b c : Candidate) : pick (pick a b) c = pick a (pick b c) := by
  unfold pick
  by_cases h1 : replaceCond b a <;> by_cases h2 : replaceCond c b <;>
    by_cases h3 : replaceCond c a <;>
    simp only [h1, h2, h3, if_true, if_false, reduceIte] <;>
    first
    | rfl
    | (exfalso
       simp only [replaceCond_iff] at h1 h2 h3
       omega)

theorem rank_eq_of_both (a b : Candidate) (h1 : replaceCond a b) (h2 : replaceCond b a) :
    rank a = rank b := by
  simp only [replaceCond_iff] at h1 h2
  have hp : a.priority = b.priority := by omega
  have hy : effYear a = effYear b := by omega
  simp [rank, hp, hy]

theorem pick_comm_of_rank_ne (a b : Candidate) (h : rank a ≠ rank b) :
    pick a b = pick b a := by
  unfold pick
  by_cases h1 : replaceCond b a <;> by_cases h2 : replaceCond a b <;>
    simp only [h1, h2, if_true, if_false, reduceIte]
  · exact absurd (rank_eq_of_both b a h1 h2) (fun hh => h hh.symm)
  · exfalso
    simp only [replaceCond_iff] at h1 h2
    omega

theorem chalO_eq_oop (e : Option Candidate) (c : Candidate) :
    chalO e c = oop e (some c) := rfl

theorem oop_none_right (x : Option Candidate) : oop x none = x := rfl

theorem oop_assoc (x y z : Option Candidate) : oop (oop x y) z = oop x (oop y z) := by
  cases x <;> cases y <;> cases z <;>
    simp only [oop, chalO, chal, pick_assoc]

theorem oop_self (x : Option Candidate) : oop x x = x := by
  cases x <;> simp [oop, chalO, chal, pick_self]

theorem oop_comm_of_rank_ne (x y : Option Candidate)
    (h : ∀ a b, x = some a → y = some b → rank a ≠ rank b) : oop x y = oop y x := by
  cases x with
  | none => cases y <;> simp [oop, chalO, chal]
  | some a =>
    cases y with
    | none => simp [oop, chalO, chal]
    | some b => simp [oop, chalO, chal, pick_comm_of_rank_ne a b (h a b rfl rfl)]

theorem winner_eq (l : List Candidate) :
    ∀ e : Option Candidate, l.foldl chalO e = oop e (l.foldl chalO none) := by
  induction l with
  | nil => intro e; rfl
  | cons c t ih =>
    intro e
    have h1 : (c :: t).foldl chalO e = t.foldl chalO (chalO e c) := rfl
    have h2 : (c :: t).foldl chalO none = t.foldl chalO (some c) := rfl
    rw [h1, h2, ih (chalO e c), ih (some c), chalO_eq_oop, oop_assoc]

theorem foldl_chalO_mem (l : List Candidate) :
    ∀ (e : Option Candidate) (c : Candidate),
      l.foldl chalO e = some c → e = some c ∨ c ∈ l := by
  induction l with
  | nil =>
    intro e c h
    exact .inl h
  | cons a t ih =>
    intro e c h
    have h1 : (a :: t).foldl chalO e = t.foldl chalO (chalO e a) := rfl
    rw [h1] at h
    rcases ih (chalO e a) c h with h2 | h2
    · cases e with
      | none =>
        have ha : a = c := by simpa [chalO, chal] using h2
        subst ha
        exact .inr (List.mem_cons_self a t)
      | some e' =>
        simp only [chalO, chal, pick] at h2
        by_cases hr : replaceCond a e'
        · rw [if_pos hr] at h2
          have ha : a = c := Option.some_inj.mp h2
          subst ha
          exact .inr (List.mem_cons_self a t)
        · rw [if_neg hr] at h2
          exact .inl h2
    · exact .inr (List.mem_cons_of_mem a h2)

theorem foldl_eq_of_perm {α β : Type} (f : β → α → β) {l l' : List α}
    (h : List.Perm l l')
    (hp : l.Pairwise (fun x y => ∀ b, f (f b x) y = f (f b y) x)) :
    ∀ b, l.foldl f b = l'.foldl f b := by
  induction h with
  | nil => intro b; rfl
  | cons x h ih =>
    intro b
    simp only [List.foldl_cons]
    exact ih (List.Pairwise.of_cons hp) (f b x)
  | swap x y l =>
    intro b
    simp only [List.foldl_cons]
    have hxy : ∀ b, f (f b y) x = f (f b x) y := (List.pairwise_cons.mp hp).1 x (by simp)
    rw [hxy]
  | trans h1 h2 ih1 ih2 =>
    intro b
    refine (ih1 hp b).trans (ih2 ?_ b)
    refine (h1.pairwise_iff ?_).mp hp
    intro x y hxy b'
    exact (hxy b').symm

/-- The candidates one batch contributes at one key. -/
def batchCands (dg : JVal → String) (k : String) (b : Batch) : List Candidate :=
  candsFor dg b.priority b.source_year b.source_label k b.features

theorem lookup_mergeBatches (dg : JVal → String) (bs : List Batch) :
    ∀ (m : AggMap) (k : String),
      lookupKey (mergeBatches dg m bs) k
        = ((bs.map (batchCands dg k)).flatten).foldl chalO (lookupKey m k) := by
  induction bs with
  | nil => intro m k; rfl
  | cons b t ih =>
    intro m k
    have h1 : mergeBatches dg m (b :: t) = mergeBatches dg (mergeBatch dg m b) t := rfl
    rw [h1, ih]
    have h2 : lookupKey (mergeBatch dg m b) k
        = (batchCands dg k b).foldl chalO (lookupKey m k) :=
      lookup_merge_features dg m b.features b.priority b.source_year b.source_label k
    rw [h2]
    simp [List.foldl_append]

/-- C4: re-applying an identical batch with identical parameters leaves the
canonical map unchanged (as a key-to-value mapping, which is what Python
dict equality compares). -/
theorem merge_features_idempotent (dg : JVal → String) (M : AggMap) (fs : List JVal)
    (p : Int) (y : Option Int) (lbl : String) :
    ∀ k, lookupKey ((merge_features dg (merge_features dg M fs p y lbl).1 fs p y lbl).1) k
      = lookupKey ((merge_features dg M fs p y lbl).1) k := by
  intro k
  rw [lookup_merge_features, lookup_merge_features]
  rw [winner_eq (candsFor dg p y lbl k fs) (lookupKey M k),
      winner_eq (candsFor dg p y lbl k fs)
        (oop (lookupKey M k) ((candsFor dg p y lbl k fs).foldl chalO none)),
      oop_assoc, oop_self]

/-- Absence of a cross-batch tie: no feature of one batch shares its
deduplication key with a feature of the other batch at equal priority and
equal effective source year. -/
def noTie (dg : JVal → String) (b b' : Batch) : Prop :=
  ∀ f ∈ b.features, ∀ f' ∈ b'.features,
    feature_key dg f = feature_key dg f' →
    rank (mkCandidate b.priority b.source_year b.source_label f)
      ≠ rank (mkCandidate b'.priority b'.source_year b'.source_label f')

theorem mem_candsFor {dg : JVal → String} {p : Int} {y : Option Int} {lbl : String}
    {k : String} {fs : List JVal} {c : Candidate} (h : c ∈ candsFor dg p y lbl k fs) :
    ∃ f ∈ fs, feature_key dg f = k ∧ c = mkCandidate p y lbl f := by
  unfold candsFor at h
  rcases List.mem_filterMap.mp h with ⟨f, hf, hsome⟩
  by_cases hk : feature_key dg f = k
  · rw [if_pos hk] at hsome
    exact ⟨f, hf, hk, (Option.some_inj.mp hsome).symm⟩
  · rw [if_neg hk] at hsome
    cases hsome

theorem blocks_commute (dg : JVal → String) (k : String) {bs : List Batch}
    (hno : bs.Pairwise (noTie dg)) :
    (bs.map (batchCands dg k)).Pairwise
      (fun x y => ∀ b, (y.foldl chalO (x.foldl chalO b)) = (x.foldl chalO (y.foldl chalO b))) := by
  refine (List.pairwise_map).mpr (hno.imp ?_)
  intro b b' hbb acc
  rw [winner_eq (batchCands dg k b) acc,
      winner_eq (batchCands dg k b') (oop acc ((batchCands dg k b).foldl chalO none)),
      winner_eq (batchCands dg k b') acc,
      winner_eq (batchCands dg k b) (oop acc ((batchCands dg k b').foldl chalO none)),
      oop_assoc, oop_assoc]
  congr 1
  apply oop_comm_of_rank_ne
  intro c c' hc hc'
  have hcm : c ∈ batchCands dg k b := by
    rcases foldl_chalO_mem (batchCands dg k b) none c hc with h | h
    · cases h
    · exact h
  have hcm' : c' ∈ batchCands dg k b' := by
    rcases foldl_chalO_mem (batchCands dg k b') none c' hc' with h | h
    · cases h
    · exact h
  rcases mem_candsFor hcm with ⟨f, hf, hfk, rfl⟩
  rcases mem_candsFor hcm' with ⟨f', hf', hfk', rfl⟩
  exact hbb f hf f' hf' (hfk.trans hfk'.symm)

theorem lookup_mergeBatches_perm (dg : JVal → String) (M : AggMap) {bs bs' : List Batch}
    (hperm : List.Perm bs bs') (hno : bs.Pairwise (noTie dg)) (k : String) :
    lookupKey (mergeBatches dg M bs) k = lookupKey (mergeBatches dg M bs') k := by
  rw [lookup_mergeBatches, lookup_mergeBatches,
      List.foldl_flatten, List.foldl_flatten]
  exact foldl_eq_of_perm (fun acc bl => bl.foldl chalO acc) (hperm.map (batchCands dg k))
    (blocks_commute dg k hno) (lookupKey M k)

/-- Keys of the aggregate in insertion order. -/
def keysOf (m : AggMap) : List String := m.map Prod.fst

/-- A canonical map has pairwise distinct keys (spec §3 invariant; automatic
for a Python dict). -/
def nodupKeys (m : AggMap) : Prop := (keysOf m).Nodup

theorem lookup_eq_none_iff (m : AggMap) (k : String) :
    lookupKey m k = none ↔ k ∉ keysOf m := by
  induction m with
  | nil => simp [lookupKey, keysOf]
  | cons hd t ih =>
    obtain ⟨k₀, c₀⟩ := hd
    by_cases h : k₀ = k
    · subst h
      simp [lookupKey, keysOf]
    · have hne : ¬k = k₀ := fun hh => h hh.symm
      have h1 : lookupKey ((k₀, c₀) :: t) k = lookupKey t k := by
        simp [lookupKey, h]
      have h2 : (k ∈ keysOf ((k₀, c₀) :: t)) ↔ (k ∈ keysOf t) := by
        simp [keysOf, hne]
      rw [h1, ih]
      exact not_congr h2.symm

theorem keysOf_setKey_of_some {m : AggMap} {k : String} {c' : Candidate}
    (h : lookupKey m k = some c') (c : Candidate) :
    keysOf (setKey m k c) = keysOf m := by
  induction m with
  | nil => simp [lookupKey] at h
  | cons hd t ih =>
    obtain ⟨k₀, c₀⟩ := hd
    by_cases h0 : k₀ = k
    · subst h0
      simp [setKey, keysOf]
    · simp only [lookupKey, if_neg h0] at h
      simp [setKey, keysOf, h0] at ih ⊢
      exact ih h

theorem keysOf_setKey_of_none {m : AggMap} {k : String}
    (h : lookupKey m k = none) (c : Candidate) :
    keysOf (setKey m k c) = keysOf m ++ [k] := by
  induction m with
  | nil => simp [setKey, keysOf]
  | cons hd t ih =>
    obtain ⟨k₀, c₀⟩ := hd
    by_cases h0 : k₀ = k
    · subst h0
      simp [lookupKey] at h
    · simp only [lookupKey, if_neg h0] at h
      simp [setKey, keysOf, h0] at ih ⊢
      exact ih h

theorem nodupKeys_setKey {m : AggMap} (hm : nodupKeys m) (k : String) (c : Candidate) :
    nodupKeys (setKey m k c) := by
  cases h : lookupKey m k with
  | none =>
    unfold nodupKeys at hm ⊢
    rw [keysOf_setKey_of_none h c]
    have hk : k ∉ keysOf m := (lookup_eq_none_iff m k).mp h
    rw [List.nodup_append]
    refine ⟨hm, List.nodup_singleton k, ?_⟩
    intro a ha hb
    simp at hb
    subst hb
    exact hk ha
  | some c' =>
    unfold nodupKeys
    rw [keysOf_setKey_of_some h c]
    exact hm

theorem nodupKeys_merge_loop (dg : JVal → String) (p : Int) (y : Option Int) (lbl : String) :
    ∀ (fs : List JVal) (m : AggMap) (st : Stats), nodupKeys m →
      nodupKeys ((fs.foldl (mergeStep dg p y lbl) (m, st)).1) := by
  intro fs
  induction fs with
  | nil => intro m st hm; exact hm
  | cons f t ih =>
    intro m st hm
    have hcons : (f :: t).foldl (mergeStep dg p y lbl) (m, st)
        = t.foldl (mergeStep dg p y lbl) (mergeStep dg p y lbl (m, st) f) := by
      simp
    rw [hcons]
    have hstep : mergeStep dg p y lbl (m, st) f
        = ((mergeStep dg p y lbl (m, st) f).1, (mergeStep dg p y lbl (m, st) f).2) := rfl
    rw [hstep]
    refine ih _ _ ?_
    rw [mergeStep_fst]
    exact nodupKeys_setKey hm _ _

theorem nodupKeys_mergeBatches (dg : JVal → String) :
    ∀ (bs : List Batch) (m : AggMap), nodupKeys m → nodupKeys (mergeBatches dg m bs) := by
  intro bs
  induction bs with
  | nil => intro m hm; exact hm
  | cons b t ih =>
    intro m hm
    have h1 : mergeBatches dg m (b :: t) = mergeBatches dg (mergeBatch dg m b) t := rfl
    rw [h1]
    exact ih _ (nodupKeys_merge_loop dg b.priority b.source_year b.source_label
      b.features m ⟨0, 0, 0⟩ hm)

/-- Removal of the binding at a key (first occurrence). -/
def eraseKey : AggMap → String → AggMap
  | [], _ => []
  | (k', c) :: t, k => if k' = k then t else (k', c) :: eraseKey t k

theorem perm_cons_eraseKey {m : AggMap} {k : String} {c : Candidate}
    (h : lookupKey m k = some c) : List.Perm m ((k, c) :: eraseKey m k) := by
  induction m with
  | nil => simp [lookupKey] at h
  | cons hd t ih =>
    obtain ⟨k₀, c₀⟩ := hd
    by_cases h0 : k₀ = k
    · subst h0
      simp only [lookupKey, if_pos rfl] at h
      have hc : c₀ = c := by simpa using h
      subst hc
      simp [eraseKey]
    · simp only [lookupKey, if_neg h0] at h
      have h2 : eraseKey ((k₀, c₀) :: t) k = (k₀, c₀) :: eraseKey t k := by
        simp [eraseKey, h0]
      rw [h2]
      exact ((ih h).cons (k₀, c₀)).trans (List.Perm.swap (k, c) (k₀, c₀) (eraseKey t k))

theorem keysOf_eraseKey_sublist (m : AggMap) (k : String) :
    (keysOf (eraseKey m k)).Sublist (keysOf m) := by
  induction m with
  | nil => simp [eraseKey, keysOf]
  | cons hd t ih =>
    obtain ⟨k₀, c₀⟩ := hd
    by_cases h0 : k₀ = k
    · simp only [eraseKey, if_pos h0, keysOf, List.map_cons]
      exact List.sublist_cons_self k₀ (t.map Prod.fst)
    · simp only [eraseKey, if_neg h0, keysOf, List.map_cons]
      exact ih.cons₂ k₀

theorem nodupKeys_eraseKey {m : AggMap} (hm : nodupKeys m) (k : String) :
    nodupKeys (eraseKey m k) :=
  hm.sublist (keysOf_eraseKey_sublist m k)

theorem lookup_eraseKey {m : AggMap} (hm : nodupKeys m) (k k' : String) :
    lookupKey (eraseKey m k) k' = if k' = k then none else lookupKey m k' := by
  induction m with
  | nil =>
    simp [eraseKey, lookupKey]
  | cons hd t ih =>
    obtain ⟨k₀, c₀⟩ := hd
    have hm0 : (keysOf t).Nodup := (List.nodup_cons.mp hm).2
    have hk0 : k₀ ∉ keysOf t := (List.nodup_cons.mp hm).1
    by_cases h0 : k₀ = k
    · subst h0
      simp only [eraseKey, if_pos rfl]
      by_cases h : k' = k₀
      · subst h
        simp [(lookup_eq_none_iff t k').mpr hk0]
      · have hne : ¬k₀ = k' := fun hh => h hh.symm
        simp [lookupKey, h, hne]
    · simp only [eraseKey, if_neg h0, lookupKey]
      by_cases h : k₀ = k'
      · subst h
        have hne : ¬k₀ = k := h0
        simp [fun hh : k₀ = k => h0 hh]
      · simp only [if_neg h]
        rw [ih hm0]

theorem ext_perm : ∀ {m₁ m₂ : AggMap}, nodupKeys m₁ → nodupKeys m₂ →
    (∀ k, lookupKey m₁ k = lookupKey m₂ k) → List.Perm m₁ m₂ := by
  intro m₁
  induction m₁ with
  | nil =>
    intro m₂ _ _ h
    cases m₂ with
    | nil => exact List.Perm.refl []
    | cons hd t =>
      obtain ⟨k, c⟩ := hd
      have := h k
      simp [lookupKey] at this
  | cons hd t ih =>
    intro m₂ h₁ h₂ h
    obtain ⟨k, c⟩ := hd
    have hk2 : lookupKey m₂ k = some c := by
      have := h k
      simp [lookupKey] at this
      exact this.symm
    have hperm2 : List.Perm m₂ ((k, c) :: eraseKey m₂ k) := perm_cons_eraseKey hk2
    have ht1 : nodupKeys t := (List.nodup_cons.mp h₁).2
    have hkt : k ∉ keysOf t := (List.nodup_cons.mp h₁).1
    have ht2 : nodupKeys (eraseKey m₂ k) := nodupKeys_eraseKey h₂ k
    have hlook : ∀ k', lookupKey t k' = lookupKey (eraseKey m₂ k) k' := by
      intro k'
      rw [lookup_eraseKey h₂ k k']
      by_cases hkk : k' = k
      · subst hkk
        simp [(lookup_eq_none_iff t k').mpr hkt]
      · rw [if_neg hkk, ← h k']
        simp only [lookupKey]
        rw [if_neg (fun hh : k = k' => hkk hh.symm)]
    exact ((ih ht1 ht2 hlook).cons (k, c)).trans hperm2.symm

/-- Boolean key comparison used by the sorted readout. -/
def keyLe (a b : String × Candidate) : Bool := a.1 ≤ b.1

theorem sortedEntries_pairwise {m : AggMap} (hm : nodupKeys m) :
    (sortedEntries m).Pairwise (fun a b : String × Candidate => a.1 < b.1 ∨ a = b) := by
  have htrans : ∀ a b c : String × Candidate,
      keyLe a b = true → keyLe b c = true → keyLe a c = true := by
    intro a b c hab hbc
    simp only [keyLe, decide_eq_true_eq] at *
    exact le_trans hab hbc
  have htotal : ∀ a b : String × Candidate, (keyLe a b || keyLe b a) = true := by
    intro a b
    simp only [keyLe, Bool.or_eq_true, decide_eq_true_eq]
    exact le_total a.1 b.1
  have hsorted : (List.mergeSort m keyLe).Pairwise (fun a b => keyLe a b = true) :=
    List.sorted_mergeSort htrans htotal m
  have hnk : (keysOf (sortedEntries m)).Nodup := by
    have hkp : List.Perm (keysOf (sortedEntries m)) (keysOf m) :=
      (List.mergeSort_perm m keyLe).map Prod.fst
    exact hkp.nodup_iff.mpr hm
  have hne : (sortedEntries m).Pairwise (fun a b : String × Candidate => a.1 ≠ b.1) :=
    List.pairwise_map.mp hnk
  have hsorted' : (sortedEntries m).Pairwise (fun a b => keyLe a b = true) := hsorted
  refine (hsorted'.and hne).imp ?_
  intro a b hab
  have h1 : a.1 ≤ b.1 := by
    have := hab.1
    simpa [keyLe] using this
  exact .inl (lt_of_le_of_ne h1 hab.2)

theorem sortedEntries_eq_of_perm {m₁ m₂ : AggMap} (hp : List.Perm m₁ m₂)
    (h₁ : nodupKeys m₁) : sortedEntries m₁ = sortedEntries m₂ := by
  have h₂ : nodupKeys m₂ := ((hp.map Prod.fst).nodup_iff).mp h₁
  have hperm12 : List.Perm (sortedEntries m₁) (sortedEntries m₂) :=
    ((List.mergeSort_perm m₁ keyLe).trans hp).trans (List.mergeSort_perm m₂ keyLe).symm
  haveI hanti : IsAntisymm (String × Candidate)
      (fun a b : String × Candidate => a.1 < b.1 ∨ a = b) := by
    constructor
    intro a b hab hba
    rcases hab with h | h
    · rcases hba with h' | h'
      · exact absurd h' (lt_asymm h)
      · exact h'.symm
    · exact h
  exact List.eq_of_perm_of_sorted hperm12 (sortedEntries_pairwise h₁) (sortedEntries_pairwise h₂)

/-- C3 amended: merging batches in any order yields the same canonical map
(as a key-to-value mapping), and from a duplicate-key-free initial map the
same sorted feature readout, provided features of different batches never
share a deduplication key at equal priority and equal effective source
year. -/
theorem merge_batches_order_independent (dg : JVal → String) (M : AggMap)
    {bs bs' : List Batch} (hperm : List.Perm bs bs') (hno : bs.Pairwise (noTie dg)) :
    (∀ k, lookupKey (mergeBatches dg M bs) k = lookupKey (mergeBatches dg M bs') k)
    ∧ (nodupKeys M →
        final_features (mergeBatches dg M bs) = final_features (mergeBatches dg M bs')) := by
  have hl : ∀ k, lookupKey (mergeBatches dg M bs) k = lookupKey (mergeBatches dg M bs') k :=
    fun k => lookup_mergeBatches_perm dg M hperm hno k
  refine ⟨hl, fun hM => ?_⟩
  have h₁ := nodupKeys_mergeBatches dg bs M hM
  have h₂ := nodupKeys_mergeBatches dg bs' M hM
  have hp := ext_perm h₁ h₂ hl
  unfold final_features
  rw [sortedEntries_eq_of_perm hp h₁]

end Download

/-- Feature with identifier X from the first tied batch; its geometry
differs from `c3FeatB`. -/
def c3FeatA : JVal :=
  .obj [("properties", .obj [("id", .str "X"), ("iso3", .str "KEN")]), ("geometry", .str "G1")]

/-- Feature with identifier X from the second tied batch. -/
def c3FeatB : JVal :=
  .obj [("properties", .obj [("id", .str "X"), ("iso3", .str "KEN")]), ("geometry", .str "G2")]

/-- Batch at priority 0, year 2023, label a. -/
def c3b1 : Download.Batch := ⟨[c3FeatA], 0, some 2023, "a"⟩

/-- Batch at the same priority and year, label b, different content. -/
def c3b2 : Download.Batch := ⟨[c3FeatB], 0, some 2023, "b"⟩

/-- C3 counterexample: two batches with the same key at equal priority and
equal effective year but different content give different canonical maps
depending on merge order (the later batch wins either way), so merging is
not order-independent in general. -/
theorem c3_counterexample :
    (Download.lookupKey (Download.mergeBatches dg0 [] [c3b1, c3b2]) "id::ken::X").map
        Download.Candidate.source_label
      ≠ (Download.lookupKey (Download.mergeBatches dg0 [] [c3b2, c3b1]) "id::ken::X").map
        Download.Candidate.source_label := by
  decide

/-- Batch at priority 0 used by the C3 witness. -/
def c3w1 : Download.Batch := ⟨[c3FeatA], 0, some 2023, "a"⟩

/-- Batch at priority 10 used by the C3 witness: ranks differ from `c3w1`,
so the no-tie hypothesis holds. -/
def c3w2 : Download.Batch := ⟨[c3FeatB], 10, some 2022, "b"⟩

instance (dg : JVal → String) (b b' : Download.Batch) : Decidable (Download.noTie dg b b') := by
  unfold Download.noTie; infer_instance

instance (m : Download.AggMap) : Decidable (Download.nodupKeys m) := by
  unfold Download.nodupKeys; infer_instance

/-- Witness for the C3 amended theorem at a concrete pair of rank-distinct
batches. -/
theorem c3_witness :
    Download.lookupKey (Download.mergeBatches dg0 [] [c3w1, c3w2]) "id::ken::X"
      = Download.lookupKey (Download.mergeBatches dg0 [] [c3w2, c3w1]) "id::ken::X"
    ∧ Download.final_features (Download.mergeBatches dg0 [] [c3w1, c3w2])
      = Download.final_features (Download.mergeBatches dg0 [] [c3w2, c3w1]) :=
  have h := Download.merge_batches_order_independent dg0 []
    (List.Perm.swap c3w2 c3w1 []) (by decide)
  ⟨h.1 "id::ken::X", h.2 (by decide)⟩

namespace Download

/-- C1: with the key already present, `merge_features` replaces the
existing Candidate exactly when the incoming priority is strictly higher,
or the priorities are equal and the incoming effective source year (a
missing year counting as 0) is at least the existing one, counting the
feature as updated; otherwise the aggregate is left untouched and the
feature is counted as skipped. In particular an existing Candidate of
priority 10 always survives an incoming priority 0, whatever the years. -/
theorem merge_replace_policy (dg : JVal → String) (m : AggMap) (st : Stats) (f : JVal)
    (p : Int) (y : Option Int) (lbl : String) (e : Candidate)
    (h : lookupKey m (feature_key dg f) = some e) :
    ((e.priority < p ∨ (p = e.priority ∧ effYear e ≤ effYear (mkCandidate p y lbl f))) →
      mergeStep dg p y lbl (m, st) f
        = (setKey m (feature_key dg f) (mkCandidate p y lbl f),
           { st with updated := st.updated + 1 }))
    ∧ (¬(e.priority < p ∨ (p = e.priority ∧ effYear e ≤ effYear (mkCandidate p y lbl f))) →
      mergeStep dg p y lbl (m, st) f = (m, { st with skipped := st.skipped + 1 }))
    ∧ (e.priority = 10 → p = 0 →
      mergeStep dg p y lbl (m, st) f = (m, { st with skipped := st.skipped + 1 })) := by
  have hpr : (mkCandidate p y lbl f).priority = p := rfl
  have hiff : replaceCond (mkCandidate p y lbl f) e ↔
      (e.priority < p ∨ (p = e.priority ∧ effYear e ≤ effYear (mkCandidate p y lbl f))) := by
    rw [replaceCond_iff, hpr]
  refine ⟨?_, ?_, ?_⟩
  · intro hc
    unfold mergeStep
    simp only [h]
    rw [if_pos (hiff.mpr hc)]
  · intro hc
    unfold mergeStep
    simp only [h]
    rw [if_neg (fun hr => hc (hiff.mp hr))]
  · intro h10 hp0
    unfold mergeStep
    simp only [h]
    rw [if_neg ?_]
    rw [replaceCond_iff, hpr, h10, hp0]
    omega

/-- Existing high-priority entry used by the C1 witness. -/
def c1Existing : Candidate := ⟨.null, 10, some 2022, "old", none⟩

/-- Aggregate holding the existing entry under the key of `c3FeatA`. -/
def c1Map : AggMap := [("id::ken::X", c1Existing)]

/-- Witness for C1: a priority 0, year 2025 challenger loses to the
existing priority 10, year 2022 Candidate, and the feature is counted as
skipped. -/
theorem merge_replace_policy_witness :
    mergeStep dg0 0 (some 2025) "new" (c1Map, ⟨0, 0, 0⟩) c3FeatA
      = (c1Map, ⟨0, 0, 1⟩) :=
  (merge_replace_policy dg0 c1Map ⟨0, 0, 0⟩ c3FeatA 0 (some 2025) "new" c1Existing
    rfl).2.2 rfl rfl

/-- Number of distinct keys in the aggregate. -/
def keysCard (m : AggMap) : Nat := (keysOf m).toFinset.card

theorem keysCard_setKey_of_some {m : AggMap} {k : String} {c' : Candidate}
    (h : lookupKey m k = some c') (c : Candidate) :
    keysCard (setKey m k c) = keysCard m := by
  unfold keysCard
  rw [keysOf_setKey_of_some h c]

theorem keysCard_setKey_of_none {m : AggMap} {k : String}
    (h : lookupKey m k = none) (c : Candidate) :
    keysCard (setKey m k c) = keysCard m + 1 := by
  unfold keysCard
  rw [keysOf_setKey_of_none h c, List.toFinset_append]
  have hk : k ∉ (keysOf m).toFinset := by
    rw [List.mem_toFinset]
    exact (lookup_eq_none_iff m k).mp h
  simp only [List.toFinset_cons, List.toFinset_nil, insert_emptyc_eq]
  rw [Finset.union_comm, ← Finset.insert_eq, Finset.card_insert_of_not_mem hk]

theorem mergeStep_eq_added {dg : JVal → String} {p : Int} {y : Option Int} {lbl : String}
    {m : AggMap} {st : Stats} {f : JVal}
    (h : lookupKey m (feature_key dg f) = none) :
    mergeStep dg p y lbl (m, st) f
      = (setKey m (feature_key dg f) (mkCandidate p y lbl f),
         { st with added := st.added + 1 }) := by
  unfold mergeStep
  dsimp only
  rw [h]

theorem mergeStep_eq_updated {dg : JVal → String} {p : Int} {y : Option Int} {lbl : String}
    {m : AggMap} {st : Stats} {f : JVal} {e : Candidate}
    (h : lookupKey m (feature_key dg f) = some e)
    (hr : replaceCond (mkCandidate p y lbl f) e) :
    mergeStep dg p y lbl (m, st) f
      = (setKey m (feature_key dg f) (mkCandidate p y lbl f),
         { st with updated := st.updated + 1 }) := by
  unfold mergeStep
  dsimp only
  rw [h]
  exact if_pos hr

theorem mergeStep_eq_skipped {dg : JVal → String} {p : Int} {y : Option Int} {lbl : String}
    {m : AggMap} {st : Stats} {f : JVal} {e : Candidate}
    (h : lookupKey m (feature_key dg f) = some e)
    (hr : ¬replaceCond (mkCandidate p y lbl f) e) :
    mergeStep dg p y lbl (m, st) f = (m, { st with skipped := st.skipped + 1 }) := by
  unfold mergeStep
  dsimp only
  rw [h]
  exact if_neg hr

theorem merge_loop_stats (dg : JVal → String) (p : Int) (y : Option Int) (lbl : String) :
    ∀ (fs : List JVal) (m : AggMap) (st : Stats),
      ((fs.foldl (mergeStep dg p y lbl) (m, st)).2.added
          + (fs.foldl (mergeStep dg p y lbl) (m, st)).2.updated
          + (fs.foldl (mergeStep dg p y lbl) (m, st)).2.skipped
        = st.added + st.updated + st.skipped + fs.length)
      ∧ (keysCard ((fs.foldl (mergeStep dg p y lbl) (m, st)).1)
          + st.added
        = keysCard m + (fs.foldl (mergeStep dg p y lbl) (m, st)).2.added) := by
  intro fs
  induction fs with
  | nil => intro m st; simp
  | cons f t ih =>
    intro m st
    have hcons : (f :: t).foldl (mergeStep dg p y lbl) (m, st)
        = t.foldl (mergeStep dg p y lbl) (mergeStep dg p y lbl (m, st) f) := by
      simp
    rw [hcons]
    cases hl : lookupKey m (feature_key dg f) with
    | none =>
      rw [mergeStep_eq_added hl]
      have := ih (setKey m (feature_key dg f) (mkCandidate p y lbl f))
        { st with added := st.added + 1 }
      rw [keysCard_setKey_of_none hl] at this
      obtain ⟨h1, h2⟩ := this
      dsimp only at h1 h2
      constructor
      · rw [h1]; simp; omega
      · omega
    | some e =>
      by_cases hr : replaceCond (mkCandidate p y lbl f) e
      · rw [mergeStep_eq_updated hl hr]
        have := ih (setKey m (feature_key dg f) (mkCandidate p y lbl f))
          { st with updated := st.updated + 1 }
        rw [keysCard_setKey_of_some hl] at this
        obtain ⟨h1, h2⟩ := this
        dsimp only at h1 h2
        constructor
        · rw [h1]; simp; omega
        · omega
      · rw [mergeStep_eq_skipped hl hr]
        have := ih m { st with skipped := st.skipped + 1 }
        obtain ⟨h1, h2⟩ := this
        dsimp only at h1 h2
        constructor
        · rw [h1]; simp; omega
        · omega

/-- C10: every incoming feature increments exactly one of the three
counters, so added + updated + skipped equals the batch length, and the
aggregate gains exactly `added` new keys. -/
theorem merge_stats_partition (dg : JVal → String) (m : AggMap) (fs : List JVal)
    (p : Int) (y : Option Int) (lbl : String) :
    ((merge_features dg m fs p y lbl).2.added
        + (merge_features dg m fs p y lbl).2.updated
        + (merge_features dg m fs p y lbl).2.skipped
      = fs.length)
    ∧ keysCard ((merge_features dg m fs p y lbl).1)
      = keysCard m + (merge_features dg m fs p y lbl).2.added := by
  have h := merge_loop_stats dg p y lbl fs m ⟨0, 0, 0⟩
  unfold merge_features
  obtain ⟨h1, h2⟩ := h
  dsimp only at h1 h2
  constructor
  · rw [h1]
    omega
  · omega

end Download

namespace Simplify

/-- Python's round-half-to-even on a rational. -/
def roundHalfEven (x : Rat) : Int :=
  let n := ⌊x⌋
  let frac := x - n
  if frac < 1 / 2 then n
  else if 1 / 2 < frac then n + 1
  else if n % 2 = 0 then n else n + 1

/-- Python `round(x, digits)` modelled over the rationals: banker's
rounding on the decimal grid of the given (possibly negative) number of
digits. -/
def pyRound (x : Rat) (digits : Int) : Rat :=
  (roundHalfEven (x * (10 : Rat) ^ digits) : Rat) / (10 : Rat) ^ digits

mutual

/-- `round_nested` of scripts/simplify_ipc_global_areas.py (lines 56-61):
lists are mapped recursively, floats rounded, everything else returned
unchanged. -/
def round_nested : JVal → Int → JVal
  | .arr xs, digits => .arr (round_nested_list xs digits)
  | .float q, digits => .float (pyRound q digits)
  | v, _ => v

/-- The list comprehension inside `round_nested`. -/
def round_nested_list : List JVal → Int → List JVal
  | [], _ => []
  | v :: vs, digits => round_nested v digits :: round_nested_list vs digits

end

theorem roundHalfEven_intCast (n : Int) : roundHalfEven (n : Rat) = n := by
  unfold roundHalfEven
  rw [Int.floor_intCast]
  norm_num

theorem pyRound_idem (x : Rat) (d : Int) : pyRound (pyRound x d) d = pyRound x d := by
  unfold pyRound
  have h10 : ((10 : Rat) ^ d) ≠ 0 := zpow_ne_zero d (by norm_num)
  rw [div_mul_cancel₀ _ h10, roundHalfEven_intCast]

mutual

theorem round_nested_idem_aux :
    ∀ (v : JVal) (d : Int), round_nested (round_nested v d) d = round_nested v d
  | .null, _ => rfl
  | .bool _, _ => rfl
  | .int _, _ => rfl
  | .float q, d => by
    simp only [round_nested, pyRound_idem]
  | .str _, _ => rfl
  | .arr xs, d => by
    simp only [round_nested, round_nested_list_idem_aux xs d]
  | .obj _, _ => rfl

theorem round_nested_list_idem_aux :
    ∀ (xs : List JVal) (d : Int),
      round_nested_list (round_nested_list xs d) d = round_nested_list xs d
  | [], _ => rfl
  | v :: vs, d => by
    simp only [round_nested_list, round_nested_idem_aux v d,
      round_nested_list_idem_aux vs d]

end

/-- C8: coordinate rounding is idempotent — re-rounding a nested
coordinate structure at the same number of digits changes nothing. -/
theorem round_nested_idempotent :
    ∀ (v : JVal) (d : Nat), round_nested (round_nested v (d : Int)) (d : Int)
      = round_nested v (d : Int) :=
  fun v d => round_nested_idem_aux v (d : Int)

/-- A geometry dictionary test (`isinstance(geometry, dict)`). -/
def isObj : JVal → Bool
  | .obj _ => true
  | _ => false

/-- In-place update of an association list, appending new keys. -/
def setPair : List (String × JVal) → String → JVal → List (String × JVal)
  | [], k, v => [(k, v)]
  | (k', v') :: t, k, v => if k' = k then (k, v) :: t else (k', v') :: setPair t k v

/-- Dict assignment on a JSON object value, leaving non-objects alone. -/
def jset : JVal → String → JVal → JVal
  | .obj kvs, k, v => .obj (setPair kvs k v)
  | j, _, _ => j

/-- `simplify_geometry` (lines 64-83). The external shapely call is the
injected `ext`: `none` models an unavailable library or a raised
exception (geometry left unchanged with a warning), `some (empty, g)`
models a successful simplification together with its `is_empty` flag. -/
def simplify_geometry (ext : JVal → Rat → Option (Bool × JVal))
    (geometry : JVal) (tolerance : Rat) : JVal :=
  if tolerance ≤ 0 then geometry
  else
    match ext geometry tolerance with
    | none => geometry
    | some (true, _) => geometry
    | some (false, g') => g'

/-- `simplify_feature` (lines 86-95): the deep copy is the identity in the
pure model; the in-place mutation of the geometry dict reaches the feature
through the final assignment. -/
def simplify_feature (ext : JVal → Rat → Option (Bool × JVal))
    (feature : JVal) (digits : Int) (tolerance : Rat) : JVal :=
  match jget feature "geometry" with
  | some g =>
    if isObj g then
      let g1 := if 0 < tolerance then simplify_geometry ext g tolerance else g
      let g2 :=
        match jget g1 "coordinates" with
        | some coords => jset g1 "coordinates" (round_nested coords digits)
        | none => g1
      jset feature "geometry" g2
    else feature
  | none => feature

/-- `simplify_features` (lines 113-119). -/
def simplify_features (ext : JVal → Rat → Option (Bool × JVal))
    (features : List JVal) (precision : Int) (simplify_tolerance : Rat) : List JVal :=
  features.map (fun f => simplify_feature ext f precision simplify_tolerance)

/-- C5: the simplification step never discards an area — a non-positive
tolerance returns the geometry unchanged, a degenerate (empty) result from
the injected simplifier keeps the original geometry, and `simplify_features`
returns exactly one feature per input feature. -/
theorem simplify_never_discards (ext : JVal → Rat → Option (Bool × JVal)) :
    (∀ (g : JVal) (t : Rat), t ≤ 0 → simplify_geometry ext g t = g)
    ∧ (∀ (g : JVal) (t : Rat) (g' : JVal), ext g t = some (true, g') →
        simplify_geometry ext g t = g)
    ∧ (∀ (fs : List JVal) (p : Int) (t : Rat),
        (simplify_features ext fs p t).length = fs.length) := by
  refine ⟨?_, ?_, ?_⟩
  · intro g t ht
    unfold simplify_geometry
    rw [if_pos ht]
  · intro g t g' hext
    unfold simplify_geometry
    by_cases ht : t ≤ 0
    · rw [if_pos ht]
    · rw [if_neg ht, hext]
  · intro fs p t
    unfold simplify_features
    exact fs.length_map _

/-- Stub simplifier whose result is always empty. -/
def extEmpty : JVal → Rat → Option (Bool × JVal) := fun _ _ => some (true, .null)

/-- Witness for C5 at a concrete geometry, tolerance and feature list. -/
theorem simplify_never_discards_witness :
    simplify_geometry extEmpty (.str "G") 0 = .str "G"
    ∧ simplify_geometry extEmpty (.str "G") 1 = .str "G"
    ∧ (simplify_features extEmpty [.null] 4 0).length = 1 :=
  ⟨(simplify_never_discards extEmpty).1 (.str "G") 0 le_rfl,
   (simplify_never_discards extEmpty).2.1 (.str "G") 1 .null rfl,
   (simplify_never_discards extEmpty).2.2 [.null] 4 0⟩

end Simplify

namespace Download

/-- The default assessment years `range(2025, 2019, -1)`. -/
def YEARS_TO_TRY : List Int := [2025, 2024, 2023, 2022, 2021, 2020]

/-- Order-preserving deduplication pass of `normalize_years`. -/
def dedupFirst (seen : List Int) : List Int → List Int
  | [] => []
  | y :: ys => if y ∈ seen then dedupFirst seen ys else y :: dedupFirst (y :: seen) ys

/-- `normalize_years` (scripts/download_ipc_areas.py lines 47-64). -/
def normalize_years (years : Option (List Int)) : Except String (List Int) :=
  match years with
  | none => .ok YEARS_TO_TRY
  | some ys =>
    if ys = [] then .ok YEARS_TO_TRY
    else
      let normalized := dedupFirst [] ys
      if normalized = [] then .error "At least one valid assessment year must be provided"
      else .ok normalized

/-- Parameter handling of `IPCAreaDownloader.__init__` (lines 126-157):
the API key check, year normalization and the non-negativity checks on
precision and tolerance, in source order. Side effects (session setup,
directory creation) are outside the model; on success the normalized year
list is returned. -/
def downloader_init (ipc_key : Option String) (years_to_try : Option (List Int))
    (precision : Int) (simplify_tolerance : Rat) : Except String (List Int) :=
  if ipc_key.getD "" = "" then .error "IPC_KEY environment variable is required"
  else
    match normalize_years years_to_try with
    | .error e => .error e
    | .ok yt =>
      if yt = [] then .error "At least one assessment year must be configured"
      else if precision < 0 then .error "Precision must be non-negative"
      else if simplify_tolerance < 0 then .error "Simplification tolerance must be non-negative"
      else .ok yt

theorem dedupFirst_cons_ne_nil (seen : List Int) (y : Int) (ys : List Int) :
    dedupFirst seen (y :: ys) ≠ [] ∨ y ∈ seen := by
  by_cases h : y ∈ seen
  · exact .inr h
  · left
    unfold dedupFirst
    rw [if_neg h]
    exact List.cons_ne_nil y (dedupFirst (y :: seen) ys)

theorem normalize_years_ok (years : Option (List Int)) :
    ∃ l, normalize_years years = .ok l ∧ l ≠ [] := by
  unfold normalize_years
  match years with
  | none => exact ⟨YEARS_TO_TRY, rfl, by decide⟩
  | some [] => exact ⟨YEARS_TO_TRY, rfl, by decide⟩
  | some (y :: ys) =>
    have hne : dedupFirst [] (y :: ys) ≠ [] := by
      rcases dedupFirst_cons_ne_nil [] y ys with h | h
      · exact h
      · cases h
    simp only [if_neg (List.cons_ne_nil y ys), if_neg hne]
    exact ⟨dedupFirst [] (y :: ys), rfl, hne⟩

end Download

namespace Simplify

/-- `simplify_topojson` (lines 122-150) restricted to its in-memory core:
the features have already been decoded from the source artifact, and the
byte-size report is outside the model. The only failure path is an empty
feature list; the parameters are not validated. -/
def simplify_topojson (ext : JVal → Rat → Option (Bool × JVal))
    (features : List JVal) (precision : Int) (simplify_tolerance : Rat) :
    Except String (List JVal) :=
  match features with
  | [] => .error "No features available to simplify"
  | _ => .ok (simplify_features ext features precision simplify_tolerance)

theorem pyRound_neg_digit : pyRound 123 (-1) = 120 := by
  unfold pyRound roundHalfEven
  rw [zpow_neg_one]
  have h1 : (123 : Rat) * (10 : Rat)⁻¹ = 123 / 10 := by
    rw [div_eq_mul_inv]
  rw [h1]
  have hf : ⌊(123 : Rat) / 10⌋ = 12 := by
    rw [Int.floor_eq_iff]
    constructor <;> norm_num
  rw [hf]
  rw [if_pos (by norm_num : (123 : Rat) / 10 - ((12 : Int) : Rat) < 1 / 2)]
  norm_num

end Simplify

/-- Feature with a float coordinate, used to show that a negative
precision is processed rather than rejected. -/
def c7Feat : JVal :=
  .obj [("type", .str "Feature"),
        ("geometry", .obj [("type", .str "Polygon"),
                           ("coordinates", .arr [.float 123])])]

/-- The same feature after rounding at precision -1. -/
def c7FeatRounded : JVal :=
  .obj [("type", .str "Feature"),
        ("geometry", .obj [("type", .str "Polygon"),
                           ("coordinates", .arr [.float 120])])]

/-- C7 counterexample: `simplify_topojson` performs no parameter
validation — with precision -1 it happily processes the dataset, rounding
123 to 120, instead of failing fast with a configuration error. -/
theorem c7_counterexample :
    Simplify.simplify_topojson Simplify.extEmpty [c7Feat] (-1) 0 = .ok [c7FeatRounded] := by
  have h1 : Simplify.simplify_topojson Simplify.extEmpty [c7Feat] (-1) 0
      = .ok [.obj [("type", .str "Feature"),
                   ("geometry", .obj [("type", .str "Polygon"),
                                      ("coordinates",
                                       .arr [.float (Simplify.pyRound 123 (-1))])])]] := rfl
  rw [h1, Simplify.pyRound_neg_digit]
  rfl

/-- C7 amended: only `IPCAreaDownloader.__init__` validates the
parameters — with the API key present it raises exactly for a negative
precision (first) or a negative tolerance (second) before any processing,
and succeeds otherwise — while `simplify_topojson` accepts any precision
and tolerance, processing every nonempty feature list. -/
theorem config_validation (k : String) (ys : Option (List Int)) (p : Int) (t : Rat) :
    (k ≠ "" →
      ((p < 0 → Download.downloader_init (some k) ys p t
          = .error "Precision must be non-negative")
       ∧ (0 ≤ p → t < 0 → Download.downloader_init (some k) ys p t
          = .error "Simplification tolerance must be non-negative")
       ∧ (0 ≤ p → 0 ≤ t → ∃ yt, Download.downloader_init (some k) ys p t = .ok yt)))
    ∧ (∀ (ext : JVal → Rat → Option (Bool × JVal)) (fs : List JVal), fs ≠ [] →
        Simplify.simplify_topojson ext fs p t
          = .ok (Simplify.simplify_features ext fs p t)) := by
  constructor
  · intro hk
    obtain ⟨yt, hyt, hne⟩ := Download.normalize_years_ok ys
    have hkey : (some k).getD "" ≠ "" := hk
    refine ⟨?_, ?_, ?_⟩
    · intro hp
      unfold Download.downloader_init
      rw [if_neg hkey, hyt]
      simp only [if_neg hne, if_pos hp]
    · intro hp ht
      unfold Download.downloader_init
      rw [if_neg hkey, hyt]
      simp only [if_neg hne, if_neg (by omega : ¬p < 0), if_pos ht]
    · intro hp ht
      refine ⟨yt, ?_⟩
      unfold Download.downloader_init
      rw [if_neg hkey, hyt]
      simp only [if_neg hne, if_neg (by omega : ¬p < 0),
        if_neg (by exact not_lt.mpr ht : ¬t < 0)]
  · intro ext fs hfs
    unfold Simplify.simplify_topojson
    match fs, hfs with
    | f :: t, _ => rfl

/-- Witness for the C7 amended theorem at concrete parameters. -/
theorem config_validation_witness :
    Download.downloader_init (some "K") none (-1) 0
      = .error "Precision must be non-negative"
    ∧ Download.downloader_init (some "K") none 4 (-1)
      = .error "Simplification tolerance must be non-negative"
    ∧ (∃ yt, Download.downloader_init (some "K") none 4 0 = .ok yt)
    ∧ Simplify.simplify_topojson Simplify.extEmpty [.null] 4 0
      = .ok (Simplify.simplify_features Simplify.extEmpty [.null] 4 0) :=
  ⟨((config_validation "K" none (-1) 0).1 (by decide)).1 (by decide),
   ((config_validation "K" none 4 (-1)).1 (by decide)).2.1 (by decide) (by norm_num),
   ((config_validation "K" none 4 0).1 (by decide)).2.2 (by decide) le_rfl,
   (config_validation "K" none 4 0).2 Simplify.extEmpty [.null] (by simp)⟩

namespace Optimize

/-- A Python `Counter` specialised to string keys: insertion-ordered
association list of counts. -/
abbrev Counter := List (String × Nat)

/-- `counter[k] += 1`: increments in place, appends new keys. -/
def bump : Counter → String → Counter
  | [], k => [(k, 1)]
  | (k', n) :: t, k => if k' = k then (k', n + 1) :: t else (k', n) :: bump t k

/-- The `defaultdict(Counter)` keyed by ISO3 scope. -/
abbrev ScopeMap := List (String × Counter)

/-- `per_country[iso3][k] += 1`. -/
def bumpScope : ScopeMap → String → String → ScopeMap
  | [], iso3, k => [(iso3, bump [] k)]
  | (s, c) :: t, iso3, k =>
    if s = iso3 then (s, bump c k) :: t else (s, c) :: bumpScope t iso3 k

/-- `geom.get("id")` of a geometry record (absent and JSON null both read
as Python `None`). -/
def gid (geom : JVal) : Option JVal := jgetPy geom "id"

/-- The `(geom.get("properties") or {}).get("iso3", "UNK") or "UNK"`
scope computation of `find_duplicate_ids`. -/
def geomIso3 (geom : JVal) : String :=
  let props := jprops geom
  match jget props "iso3" with
  | some v => if pyTruthy v then (match v with | .str s => s | w => pyStr w) else "UNK"
  | none => "UNK"

/-- Loop body of `find_duplicate_ids`
(scripts/optimize_global_topojson.py lines 60-73): a missing identifier is
tallied as the marker string in both the global and the per-scope counter,
a present identifier as its string form. -/
def tallyStep (acc : Counter × ScopeMap) (geom : JVal) : Counter × ScopeMap :=
  match gid geom with
  | none => (bump acc.1 "<missing>", bumpScope acc.2 (geomIso3 geom) "<missing>")
  | some g => (bump acc.1 (pyStr g), bumpScope acc.2 (geomIso3 geom) (pyStr g))

/-- Both tallies after the counting loop. -/
def tallies (geoms : List JVal) : Counter × ScopeMap := geoms.foldl tallyStep ([], [])

/-- Keys with a count above one, in insertion order. -/
def dupsOf (c : Counter) : List String := (c.filter (fun p => 1 < p.2)).map Prod.fst

/-- `find_duplicate_ids` (lines 54-83): global duplicate ids and the
duplicates grouped by ISO3 scope. -/
def find_duplicate_ids (geoms : List JVal) : List String × List (String × List String) :=
  (dupsOf (tallies geoms).1,
   (tallies geoms).2.filterMap
     (fun p => match dupsOf p.2 with | [] => none | d => some (p.1, d)))

/-- Count recorded under one key. -/
def countOf (c : Counter) (k : String) : Nat :=
  ((c.find? (fun p => p.1 = k)).map Prod.snd).getD 0

theorem countOf_bump (c : Counter) (k' k : String) :
    countOf (bump c k') k = countOf c k + (if k = k' then 1 else 0) := by
  induction c with
  | nil =>
    by_cases h : k' = k
    · subst h
      simp [bump, countOf, List.find?]
    · have hne : ¬k = k' := fun hh => h hh.symm
      simp [bump, countOf, List.find?, h, hne]
  | cons hd t ih =>
    obtain ⟨k₀, n⟩ := hd
    by_cases h0 : k₀ = k'
    · subst h0
      by_cases h : k₀ = k
      · subst h
        simp [bump, countOf, List.find?]
      · have hne : ¬k = k₀ := fun hh => h hh.symm
        simp [bump, countOf, List.find?, h, hne]
    · by_cases h : k₀ = k
      · subst h
        simp [bump, countOf, List.find?, h0]
      · simp only [bump, if_neg h0]
        simp only [countOf, List.find?] at ih ⊢
        rw [show (decide (k₀ = k)) = false from decide_eq_false h]
        simp only [Bool.false_eq_true, if_false]
        exact ih

theorem tallies_missing_count :
    ∀ (geoms : List JVal) (acc : Counter × ScopeMap),
      countOf acc.1 "<missing>" + (geoms.filter (fun g => (gid g).isNone)).length
        ≤ countOf ((geoms.foldl tallyStep acc).1) "<missing>" := by
  intro geoms
  induction geoms with
  | nil =>
    intro acc
    exact le_rfl
  | cons g t ih =>
    intro acc
    rw [List.foldl_cons]
    cases hg : gid g with
    | none =>
      have hstep : (tallyStep acc g).1 = bump acc.1 "<missing>" := by
        unfold tallyStep
        rw [hg]
      have hcount : countOf ((tallyStep acc g).1) "<missing>"
          = countOf acc.1 "<missing>" + 1 := by
        rw [hstep, countOf_bump]
        simp
      have hfil : (List.filter (fun g => (gid g).isNone) (g :: t)).length
          = (List.filter (fun g => (gid g).isNone) t).length + 1 := by
        simp [List.filter, hg]
      have := ih (tallyStep acc g)
      rw [hcount] at this
      omega
    | some v =>
      have hstep : (tallyStep acc g).1 = bump acc.1 (pyStr v) := by
        unfold tallyStep
        rw [hg]
      have hcount : countOf acc.1 "<missing>" ≤ countOf ((tallyStep acc g).1) "<missing>" := by
        rw [hstep, countOf_bump]
        omega
      have hfil : (List.filter (fun g => (gid g).isNone) (g :: t)).length
          = (List.filter (fun g => (gid g).isNone) t).length := by
        simp [List.filter, hg]
      have := ih (tallyStep acc g)
      omega

theorem mem_dupsOf {c : Counter} {k : String} (h : 2 ≤ countOf c k) : k ∈ dupsOf c := by
  unfold countOf at h
  cases hf : c.find? (fun p => p.1 = k) with
  | none => rw [hf] at h; simp at h
  | some e =>
    rw [hf] at h
    simp at h
    have hp : e.1 = k := by
      have := List.find?_some hf
      exact of_decide_eq_true this
    have hm : e ∈ c := List.mem_of_find?_eq_some hf
    unfold dupsOf
    refine List.mem_map.mpr ⟨e, List.mem_filter.mpr ⟨hm, ?_⟩, hp⟩
    exact decide_eq_true (by omega : 1 < e.2)

/-- C6 amended: a feature with a missing identifier is tallied as the
marker `<missing>` in both the global and its scope's counter, but the
marker reaches the returned duplicate lists only when the tallied count
exceeds one — at least two features must lack identifiers before a warning
surfaces; a single missing identifier passes silently. -/
theorem missing_id_marker (geoms : List JVal) :
    (∀ (acc : Counter × ScopeMap) (g : JVal), gid g = none →
      tallyStep acc g = (bump acc.1 "<missing>", bumpScope acc.2 (geomIso3 g) "<missing>"))
    ∧ (2 ≤ (geoms.filter (fun g => (gid g).isNone)).length →
        "<missing>" ∈ (find_duplicate_ids geoms).1) := by
  constructor
  · intro acc g hg
    unfold tallyStep
    rw [hg]
  · intro hlen
    have h := tallies_missing_count geoms ([], [])
    have h0 : countOf ([] : Counter) "<missing>" = 0 := rfl
    rw [h0] at h
    have h2 : 2 ≤ countOf (tallies geoms).1 "<missing>" := by
      unfold tallies
      omega
    exact mem_dupsOf h2

/-- C9: two geometry records carrying identifier A1 in scope KEN are
reported as a global duplicate A1 and a per-scope duplicate A1 under KEN. -/
theorem duplicate_ids_report (g1 g2 : JVal)
    (h1 : gid g1 = some (.str "A1")) (h2 : gid g2 = some (.str "A1"))
    (hi1 : geomIso3 g1 = "KEN") (hi2 : geomIso3 g2 = "KEN") :
    find_duplicate_ids [g1, g2] = (["A1"], [("KEN", ["A1"])]) := by
  unfold find_duplicate_ids tallies
  simp only [List.foldl_cons, List.foldl_nil]
  rw [show tallyStep ([], []) g1
      = (bump [] "A1", bumpScope [] "KEN" "A1") from by
    unfold tallyStep; rw [h1, hi1]; rfl]
  rw [show tallyStep (bump [] "A1", bumpScope [] "KEN" "A1") g2
      = (bump (bump [] "A1") "A1", bumpScope (bumpScope [] "KEN" "A1") "KEN" "A1") from by
    unfold tallyStep; rw [h2, hi2]; rfl]
  rfl

end Optimize

/-- Geometry record with no identifier in scope KEN. -/
def c6Geom : JVal := .obj [("properties", .obj [("iso3", .str "KEN")])]

/-- C6 counterexample: a dataset with exactly one id-missing feature
passes both uniqueness reports silently — no `<missing>` marker (nor any
duplicate) is surfaced, contradicting the claim that such a dataset
surfaces a warning. -/
theorem c6_counterexample :
    Optimize.gid c6Geom = none
    ∧ (Optimize.find_duplicate_ids [c6Geom]).1 = []
    ∧ (Optimize.find_duplicate_ids [c6Geom]).2 = [] :=
  ⟨rfl, rfl, rfl⟩

/-- A second id-missing geometry record, in another scope. -/
def c6GeomB : JVal := .obj [("properties", .obj [("iso3", .str "SOM")])]

/-- Witness for the C6 amended theorem: the marker is tallied for a
concrete id-missing record, and two id-missing records do surface the
marker globally. -/
theorem missing_id_marker_witness :
    Optimize.tallyStep ([], []) c6Geom
      = (Optimize.bump [] "<missing>",
         Optimize.bumpScope [] (Optimize.geomIso3 c6Geom) "<missing>")
    ∧ "<missing>" ∈ (Optimize.find_duplicate_ids [c6Geom, c6GeomB]).1 :=
  ⟨(Optimize.missing_id_marker [c6Geom, c6GeomB]).1 ([], []) c6Geom rfl,
   (Optimize.missing_id_marker [c6Geom, c6GeomB]).2 (by decide)⟩

/-- First geometry record of the C9 witness. -/
def c9g1 : JVal := .obj [("id", .str "A1"), ("properties", .obj [("iso3", .str "KEN")])]

/-- Second geometry record of the C9 witness, with different arc data. -/
def c9g2 : JVal :=
  .obj [("id", .str "A1"), ("arcs", .int 2), ("properties", .obj [("iso3", .str "KEN")])]

/-- Witness for C9 at two concrete geometry records. -/
theorem duplicate_ids_report_witness :
    Optimize.find_duplicate_ids [c9g1, c9g2] = (["A1"], [("KEN", ["A1"])]) :=
  Optimize.duplicate_ids_report c9g1 c9g2 rfl rfl rfl rfl
